import Mathlib

/-!
# Verification of the paths-filter action core (`src/main.py`)

This file shallowly embeds the core of the repository's `main.py`:

* `glob_to_regex` (the glob → regex pattern compiler) together with the
  semantics of the small regex fragment it emits (Python `re`, no flags:
  `.` matches any character except newline, `[^/]*` matches any run of
  characters other than `/`, `$` accepts the end of the string or a
  position just before a single trailing newline, `re.escape`d characters
  match themselves literally);
* the post-processing of the diff provider's output in `get_commits`
  (`splitlines` / `strip` / blank filtering);
* the command-selection logic of `get_commits` over an abstract git
  oracle (merge-base with fallback, base-only diff, parent/empty-tree);
* the base/ref resolution in `main` for the `pull_request`, `push` and
  other event kinds;
* the per-filter matching loop of `main` (match flag, matched-file list,
  count, aggregate `changes` list).

Paths fed to the matchers by the program come from `splitlines`-then-
`strip`, so they never contain a newline character; theorems about the
matcher quantify over such newline-free paths (`noNL`).
-/

namespace PathsFilter

/-- The regex fragment emitted by `glob_to_regex`.  Each constructor is one
of the pieces the Python code concatenates:
`re.escape(c)` (`lit`), `.` for `?` (`anyNoNL`), `[^/]*` for `*`
(`starNoSlash`), `.*` for a lone `**` (`dotStar`), `(?:.*/)?` for a
leading `**` (`optLeadDirs`) and `(?:/.*)?` for a non-leading `**`
(`optSlashRest`); the interior form `(?:/.*)?/` is `optSlashRest`
followed by `lit '/'`. -/
inductive RTok where
  | lit (c : Char)
  | anyNoNL
  | starNoSlash
  | dotStar
  | optLeadDirs
  | optSlashRest
deriving DecidableEq, Repr

/-- All ways to split a list into a prefix and a suffix (in order of
growing prefix). -/
def splits : List Char → List (List Char × List Char)
  | [] => [([], [])]
  | c :: s => ([], c :: s) :: (splits s).map (fun p => (c :: p.1, p.2))

/-- Python `re` matching of a token sequence against a string, anchored on
both sides (the compiled pattern is `^...$` and is used with `re.match`).
The empty token list is the `$` anchor: it accepts the end of the string
or a single trailing newline. -/
def matchToks : List RTok → List Char → Bool
  | [], s => s = [] || s = ['\n']
  | .lit _ :: _, [] => false
  | .lit c :: ts, x :: s' => x = c && matchToks ts s'
  | .anyNoNL :: _, [] => false
  | .anyNoNL :: ts, x :: s' => !(x = '\n') && matchToks ts s'
  | .starNoSlash :: ts, s =>
    (splits s).any fun p => p.1.all (fun c => !(c = '/')) && matchToks ts p.2
  | .dotStar :: ts, s =>
    (splits s).any fun p => p.1.all (fun c => !(c = '\n')) && matchToks ts p.2
  | .optLeadDirs :: ts, s =>
    matchToks ts s ||
      ((splits s).any fun p =>
        !(p.1 = []) && p.1.getLast? = some '/' &&
          p.1.dropLast.all (fun c => !(c = '\n')) && matchToks ts p.2)
  | .optSlashRest :: ts, s =>
    matchToks ts s ||
      (match s with
       | '/' :: s' =>
         (splits s').any fun p => p.1.all (fun c => !(c = '\n')) && matchToks ts p.2
       | _ => false)

/-- Python `pattern.split('/')`: split at every `/`, keeping empty pieces
(`"".split('/') == [""]`). -/
def splitOnSlash : List Char → List (List Char)
  | [] => [[]]
  | c :: cs =>
    if c = '/' then [] :: splitOnSlash cs
    else
      match splitOnSlash cs with
      | [] => [[c]]
      | p :: ps => (c :: p) :: ps

/-- The per-character loop of `glob_to_regex` for a non-`**` segment:
`*` becomes `[^/]*`, `?` becomes `.`, anything else is escaped and
matches itself. -/
def compileSegment (part : List Char) : List RTok :=
  part.map fun c => if c = '*' then .starNoSlash else if c = '?' then .anyNoNL else .lit c

/-- A split pattern segment: either the recursive marker (`'__RECURSIVE__'`,
for a part equal to `**`) or the token list of a compiled segment. -/
inductive Seg where
  | recur
  | lits (ts : List RTok)
deriving DecidableEq, Repr

/-- First loop of `glob_to_regex`: mark `**` parts, compile the rest. -/
def segsOf (pattern : List Char) : List Seg :=
  (splitOnSlash pattern).map fun part =>
    if part = ['*', '*'] then .recur else .lits (compileSegment part)

/-- Second loop of `glob_to_regex`: join the segment pieces.  `prev` is the
previous segment (`none` on the first iteration, i.e. `i == 0`); an empty
`rest` means `i == len - 1`.  A `/` joiner is inserted before a
non-recursive segment whose predecessor exists and is not recursive. -/
def assembleGo : Option Seg → List Seg → List RTok
  | _, [] => []
  | prev, s :: rest =>
    (match s with
     | .recur =>
       match prev with
       | none => if rest = [] then [.dotStar] else [.optLeadDirs]
       | some _ => if rest = [] then [.optSlashRest] else [.optSlashRest, .lit '/']
     | .lits ts =>
       (match prev with
        | some (.lits _) => [RTok.lit '/']
        | _ => []) ++ ts)
      ++ assembleGo (some s) rest

/-- `glob_to_regex`: the full token sequence compiled from a pattern. -/
def glob_to_regex (pattern : String) : List RTok :=
  assembleGo none (segsOf pattern.data)

/-- `glob_to_regex(pattern).match(path)` as a boolean. -/
def reMatch (pattern path : String) : Bool :=
  matchToks (glob_to_regex pattern) path.data

/-- A string free of newline characters.  Every path the program hands to a
matcher is of this shape: `get_commits` builds them with
`splitlines()` + `strip()`. -/
def noNL (s : String) : Prop := ∀ c ∈ s.data, c ≠ '\n'

instance (s : String) : Decidable (noNL s) := by
  unfold noNL; infer_instance

/-! ## `get_commits`: post-processing of the diff output (line 80) -/

/-- Python line boundaries recognised by `str.splitlines`. -/
def isLineBoundary (c : Char) : Bool :=
  c = '\n' || c = '\r' || c = '\x0b' || c = '\x0c' ||
  c = '\x1c' || c = '\x1d' || c = '\x1e' || c = '\x85' ||
  c = ' ' || c = ' '

/-- Python `str.splitlines()`: split at line boundaries (`\r\n` counting as
one), with no trailing empty line and `[]` for the empty string. -/
def splitlines : List Char → List (List Char)
  | [] => []
  | '\r' :: '\n' :: cs => [] :: splitlines cs
  | c :: cs =>
    if isLineBoundary c then [] :: splitlines cs
    else
      match splitlines cs with
      | [] => [[c]]
      | l :: ls => (c :: l) :: ls

/-- The whitespace characters removed by Python `str.strip()` (ASCII
whitespace plus the information/line/paragraph separators; the remaining
Unicode space-category characters do not occur in git output and are not
modelled). -/
def pyIsSpace (c : Char) : Bool :=
  c = ' ' || c = '\t' || c = '\n' || c = '\r' || c = '\x0b' || c = '\x0c' ||
  c = '\x1c' || c = '\x1d' || c = '\x1e' || c = '\x1f' || c = '\x85' ||
  c = ' ' || c = ' ' || c = ' '

/-- Python `str.strip()`: drop leading and trailing whitespace. -/
def strip (s : List Char) : List Char :=
  ((s.dropWhile pyIsSpace).reverse.dropWhile pyIsSpace).reverse

/-- `run_command` returns `result.stdout.strip()`. -/
def run_command_post (stdout : String) : String := ⟨strip stdout.data⟩

/-- Line 80 of `main.py`:
`[line.strip() for line in output.splitlines() if line.strip()]`, applied
to the (already stripped) output `run_command` returned. -/
def get_commits_post (stdout : String) : List String :=
  (splitlines (run_command_post stdout).data).filterMap fun line =>
    let t := strip line
    if t = [] then none else some (String.mk t)

/-! ## `get_commits`: command selection over the git oracle (lines 39-80) -/

/-- The diff commands `get_commits` can issue. -/
inductive DiffCmd where
  | range (a b : String)
  | toWorktree (a : String)
deriving DecidableEq, Repr

/-- The external git tool, at the narrow interface `get_commits` uses:
`mergeBase a b` is `run_command("git merge-base a b")` (stripped stdout or
the failure), `runDiff` runs one `git diff --name-only` command, and
`headHasParent` tells whether `git rev-parse --verify HEAD^` succeeds. -/
structure Git where
  mergeBase : String → String → Except String String
  runDiff : DiffCmd → Except String String
  headHasParent : Bool

/-- The well-known SHA of git's empty tree (line 76). -/
def EMPTY_TREE : String := "4b825dc642cb6eb9a060e54bf8d69288fbee4904"

/-- Python truthiness of a string-or-`None` value. -/
def truthy (o : Option String) : Bool := !(o.getD "" = "")

/-- `get_commits(base, ref, cwd)`: choose the diff command (merge-base with
fallback when both `base` and `ref` are truthy; base against the worktree
when only `base` is; parent→HEAD or empty-tree→HEAD otherwise), run it and
post-process the output.  A failure of the chosen diff command propagates
(`run_command` raises); a failure of the merge-base lookup is swallowed by
the fallback. -/
def get_commits (git : Git) (base ref : Option String) : Except String (List String) :=
  let cmd : DiffCmd :=
    if truthy base && truthy ref then
      match git.mergeBase (base.getD "") (ref.getD "") with
      | .ok mb => .range mb (ref.getD "")
      | .error _ => .range (base.getD "") (ref.getD "")
    else if truthy base then .toWorktree (base.getD "")
    else if git.headHasParent then .range "HEAD^" "HEAD"
    else .range EMPTY_TREE "HEAD"
  (git.runDiff cmd).map get_commits_post

/-! ## `main`: base/ref resolution from the event (lines 188-213) -/

/-- One `{"sha": ...}` object of the event payload (`sha` may be absent). -/
structure PRRef where
  sha : Option String

/-- The `pull_request` object of the event payload. -/
structure PRInfo where
  base : Option PRRef
  head : Option PRRef

/-- The fields of the event payload the program reads.  An absent key is
`none`, matching `dict.get`. -/
structure EventData where
  pull_request : Option PRInfo
  before : Option String

/-- The all-zero placeholder SHA (line 208). -/
def NULL_SHA : String := "0000000000000000000000000000000000000000"

/-- `event.get("pull_request", {}).get("base", {}).get("sha")`. -/
def prBaseSha (ev : EventData) : Option String :=
  (ev.pull_request.bind PRInfo.base).bind PRRef.sha

/-- `event.get("pull_request", {}).get("head", {}).get("sha")`. -/
def prHeadSha (ev : EventData) : Option String :=
  (ev.pull_request.bind PRInfo.head).bind PRRef.sha

/-- Lines 193-213 of `main.py`: resolve `(base, ref)` from the event name,
the event payload, the explicit inputs and `GITHUB_SHA`.  A Python
variable that may hold `None` is an `Option String`; the explicit inputs
default to `""` when unset (line 179-180). -/
def resolveBaseRef (event_name : String) (ev : EventData)
    (input_base input_ref : String) (github_sha : Option String) :
    Option String × Option String :=
  let base : Option String := some input_base
  let ref : Option String := some input_ref
  if event_name = "pull_request" then
    (prBaseSha ev, prHeadSha ev)
  else if event_name = "push" then
    let base :=
      if !(input_base = "") then base
      else
        match ev.before with
        | some b => if !(b = "") && !(b = NULL_SHA) then some b else base
        | none => base
    let ref := if !(input_ref = "") then ref else github_sha
    (base, ref)
  else
    (base, ref)

/-! ## `main`: the per-filter matching loop (lines 227-271) -/

/-- One changed file against one compiled pattern (lines 245-249): on a
match the file is appended unless already present, and the match flag is
set. -/
def evalStep (toks : List RTok) (st : Bool × List String) (f : String) :
    Bool × List String :=
  if matchToks toks f.data then
    (true, if st.2.contains f then st.2 else st.2 ++ [f])
  else st

/-- The inner `for file in changed_files` loop for one pattern. -/
def evalPattern (toks : List RTok) (changed : List String)
    (st : Bool × List String) : Bool × List String :=
  changed.foldl (evalStep toks) st

/-- The `for pattern in patterns` loop of one filter (lines 234-249),
starting from `is_match = False`, `matched_files = []`. -/
def evalFilter (patterns changed : List String) : Bool × List String :=
  patterns.foldl (fun st p => evalPattern (glob_to_regex p) changed st) (false, [])

/-- A filter's `matched_files` list. -/
def matchedFiles (patterns changed : List String) : List String :=
  (evalFilter patterns changed).2

/-- A filter's declared value: one pattern string or a list (line 231
normalises the former to a one-element list). -/
inductive FilterVal where
  | single (s : String)
  | many (l : List String)
deriving DecidableEq

/-- The `isinstance(patterns, str)` normalisation (lines 231-232). -/
def FilterVal.toList : FilterVal → List String
  | .single s => [s]
  | .many l => l

/-- The string written to the filter's boolean output (line 251). -/
def flagOutput (patterns changed : List String) : String :=
  if (evalFilter patterns changed).1 then "true" else "false"

/-- The value written to the filter's `_count` output (line 252). -/
def countOutput (patterns changed : List String) : Nat :=
  (evalFilter patterns changed).2.length

/-- The aggregate `changes` list (lines 227, 254-255): the names of the
filters whose `is_match` ended true, in declaration order. -/
def changesList (filters : List (String × FilterVal)) (changed : List String) :
    List String :=
  (filters.filter fun fp => (evalFilter fp.2.toList changed).1).map Prod.fst

/-- First-seen de-duplicating accumulation: append each element of `l` to
`acc` unless already present.  (Specification vocabulary for the order in
which the matching loop accumulates files.) -/
def appendNew (acc l : List String) : List String :=
  l.foldl (fun a f => if a.contains f then a else a ++ [f]) acc

/-- A character list free of newlines. -/
def noNLL (s : List Char) : Prop := ∀ c ∈ s, c ≠ '\n'

/-- Inverse of `splitOnSlash`: re-join the parts with `/`. -/
def joinWithSlash : List (List Char) → List Char
  | [] => []
  | [p] => p
  | p :: ps => p ++ '/' :: joinWithSlash ps

/-- A sample git oracle whose merge-base lookup fails (as in a shallow
clone); diff commands succeed and report one path naming the command. -/
def gitShallow : Git where
  mergeBase := fun _ _ => .error "no merge base"
  runDiff := fun c =>
    match c with
    | .range a b => .ok (a ++ ".." ++ b)
    | .toWorktree a => .ok a
  headHasParent := true

/-- A sample git oracle for a repository whose HEAD is a root commit. -/
def gitRoot : Git where
  mergeBase := fun _ _ => .error "unused"
  runDiff := fun c =>
    match c with
    | .range a b => .ok (a ++ ".." ++ b)
    | .toWorktree a => .ok a
  headHasParent := false

end PathsFilter

namespace PathsFilter

/-! ## Helper lemmas about the matcher -/

theorem mem_splits {s : List Char} {p : List Char × List Char} :
    p ∈ splits s ↔ s = p.1 ++ p.2 := by
  induction s generalizing p with
  | nil =>
    simp only [splits, List.mem_singleton]
    constructor
    · rintro rfl; rfl
    · intro h
      cases p with
      | mk a b =>
        cases a with
        | nil => cases b with
          | nil => rfl
          | cons x xs => simp at h
        | cons x xs => simp at h
  | cons c s ih =>
    simp only [splits, List.mem_cons, List.mem_map]
    constructor
    · rintro (rfl | ⟨q, hq, rfl⟩)
      · rfl
      · simp [ih.mp hq]
    · intro h
      cases p with
      | mk a b =>
        cases a with
        | nil => left; simpa using h.symm
        | cons x xs =>
          right
          simp only [List.cons_append, List.cons.injEq] at h
          exact ⟨(xs, b), ih.mpr h.2, by simp [h.1]⟩

theorem splits_any_iff {s : List Char} {f : List Char × List Char → Bool} :
    (splits s).any f = true ↔ ∃ a b, s = a ++ b ∧ f (a, b) = true := by
  rw [List.any_eq_true]
  constructor
  · rintro ⟨⟨a, b⟩, hm, hf⟩
    exact ⟨a, b, mem_splits.mp hm, hf⟩
  · rintro ⟨a, b, hab, hf⟩
    exact ⟨(a, b), mem_splits.mpr hab, hf⟩

theorem noNLL_append {a b : List Char} :
    noNLL (a ++ b) ↔ noNLL a ∧ noNLL b := by
  simp [noNLL, or_imp, forall_and]

theorem noNLL_cons {c : Char} {s : List Char} :
    noNLL (c :: s) ↔ c ≠ '\n' ∧ noNLL s := by
  simp [noNLL]

/-- Under the empty token list, a newline-free remainder must be empty. -/
theorem matchToks_nil_of_noNL {s : List Char} (h : noNLL s) :
    matchToks [] s = true ↔ s = [] := by
  simp only [matchToks, Bool.or_eq_true, decide_eq_true_eq]
  constructor
  · rintro (rfl | rfl)
    · rfl
    · exact absurd rfl (h '\n' (by simp))
  · rintro rfl; left; rfl

/-- A literal-token prefix consumes exactly its own characters. -/
theorem matchToks_lit_append {l : List Char} {ts : List RTok} {s : List Char} :
    matchToks (l.map RTok.lit ++ ts) s = true ↔
      ∃ s', s = l ++ s' ∧ matchToks ts s' = true := by
  induction l generalizing s with
  | nil => simp
  | cons c l ih =>
    cases s with
    | nil =>
      simp only [List.map_cons, List.cons_append, matchToks]
      constructor
      · intro h; exact absurd h (by simp)
      · rintro ⟨s', hs, _⟩; simp at hs
    | cons x s =>
      simp only [List.map_cons, List.cons_append, matchToks, List.append_eq,
        Bool.and_eq_true, decide_eq_true_eq, ih]
      constructor
      · rintro ⟨rfl, s', rfl, h⟩; exact ⟨s', rfl, h⟩
      · rintro ⟨s', hs, h⟩
        simp only [List.cons_append, List.cons.injEq] at hs
        exact ⟨hs.1, s', hs.2, h⟩

/-! ## The compiled form of literal patterns -/

theorem splitOnSlash_ne_nil (l : List Char) : splitOnSlash l ≠ [] := by
  induction l with
  | nil => simp [splitOnSlash]
  | cons c cs ih =>
    simp only [splitOnSlash]
    split
    · simp
    · split <;> simp

theorem joinWithSlash_splitOnSlash (l : List Char) :
    joinWithSlash (splitOnSlash l) = l := by
  induction l with
  | nil => rfl
  | cons c cs ih =>
    simp only [splitOnSlash]
    split
    · rename_i hc
      subst hc
      rcases hq : splitOnSlash cs with _ | ⟨p, ps⟩
      · exact absurd hq (splitOnSlash_ne_nil cs)
      · rw [hq] at ih
        simp [joinWithSlash, ← ih]
    · rcases hq : splitOnSlash cs with _ | ⟨p, ps⟩
      · exact absurd hq (splitOnSlash_ne_nil cs)
      · rw [hq] at ih
        cases ps with
        | nil => simpa [joinWithSlash] using congrArg (c :: ·) ih
        | cons q qs => simpa [joinWithSlash] using congrArg (c :: ·) ih

theorem mem_of_mem_splitOnSlash {l part : List Char} {c : Char}
    (hp : part ∈ splitOnSlash l) (hc : c ∈ part) : c ∈ l := by
  induction l generalizing part with
  | nil =>
    simp only [splitOnSlash, List.mem_singleton] at hp
    subst hp; simp at hc
  | cons d ds ih =>
    simp only [splitOnSlash] at hp
    split at hp
    · rcases List.mem_cons.mp hp with rfl | hp'
      · simp at hc
      · exact List.mem_cons_of_mem _ (ih hp' hc)
    · rcases hq : splitOnSlash ds with _ | ⟨p, ps⟩
      · exact absurd hq (splitOnSlash_ne_nil ds)
      · rw [hq] at hp
        rcases List.mem_cons.mp hp with rfl | hp'
        · rcases List.mem_cons.mp hc with rfl | hc'
          · exact List.mem_cons_self _ _
          · exact List.mem_cons_of_mem _ (ih (by rw [hq]; exact List.mem_cons_self _ _) hc')
        · exact List.mem_cons_of_mem _ (ih (by rw [hq]; exact List.mem_cons_of_mem _ hp') hc)

theorem join_slash_lits (p : List Char) (ps : List (List Char)) :
    ((p :: ps).map fun q => RTok.lit '/' :: q.map RTok.lit).flatten =
      RTok.lit '/' :: (joinWithSlash (p :: ps)).map RTok.lit := by
  induction ps generalizing p with
  | nil => simp [joinWithSlash]
  | cons q qs ih =>
    simp only [List.map_cons, List.flatten_cons] at ih ⊢
    rw [ih q]
    simp [joinWithSlash]

theorem assembleGo_lits_some (t₀ : List RTok) (ps : List (List Char)) :
    assembleGo (some (Seg.lits t₀)) (ps.map fun p => Seg.lits (p.map RTok.lit)) =
      (ps.map fun p => RTok.lit '/' :: p.map RTok.lit).flatten := by
  induction ps generalizing t₀ with
  | nil => rfl
  | cons p ps ih =>
    simp only [List.map_cons, assembleGo, List.flatten_cons]
    rw [ih]
    rfl

theorem assembleGo_lits_none (p : List Char) (ps : List (List Char)) :
    assembleGo none ((p :: ps).map fun q => Seg.lits (q.map RTok.lit)) =
      (joinWithSlash (p :: ps)).map RTok.lit := by
  simp only [List.map_cons, assembleGo, List.nil_append]
  rw [assembleGo_lits_some]
  cases ps with
  | nil => simp [joinWithSlash]
  | cons q qs =>
    rw [join_slash_lits]
    simp [joinWithSlash]

/-- A pattern without `*` and `?` compiles to the sequence of its own
characters as literal tokens. -/
theorem glob_to_regex_literal (pattern : String)
    (h : ∀ c ∈ pattern.data, c ≠ '*' ∧ c ≠ '?') :
    glob_to_regex pattern = pattern.data.map RTok.lit := by
  unfold glob_to_regex segsOf
  have hparts : ∀ part ∈ splitOnSlash pattern.data,
      (if part = ['*', '*'] then Seg.recur else Seg.lits (compileSegment part)) =
        Seg.lits (part.map RTok.lit) := by
    intro part hp
    have hnostar : ∀ c ∈ part, c ≠ '*' ∧ c ≠ '?' :=
      fun c hc => h c (mem_of_mem_splitOnSlash hp hc)
    have hne : part ≠ ['*', '*'] := by
      intro he
      exact (hnostar '*' (by rw [he]; simp)).1 rfl
    rw [if_neg hne]
    congr 1
    unfold compileSegment
    apply List.map_congr_left
    intro c hc
    simp [(hnostar c hc).1, (hnostar c hc).2]
  rw [List.map_congr_left hparts]
  rcases hq : splitOnSlash pattern.data with _ | ⟨p, ps⟩
  · exact absurd hq (splitOnSlash_ne_nil _)
  · rw [assembleGo_lits_none]
    rw [← hq, joinWithSlash_splitOnSlash]

/-- Matching a literal pattern against a newline-free path is exact string
equality (the compiled regex is anchored on both ends, so prefix or
partial matches never match). -/
theorem reMatch_literal (pattern : String)
    (h : ∀ c ∈ pattern.data, c ≠ '*' ∧ c ≠ '?') (path : String) (hp : noNL path) :
    reMatch pattern path = true ↔ path = pattern := by
  unfold reMatch
  rw [glob_to_regex_literal pattern h, show pattern.data.map RTok.lit =
    pattern.data.map RTok.lit ++ [] by simp, matchToks_lit_append]
  constructor
  · rintro ⟨s', hs, hm⟩
    have hnl : noNLL s' := fun c hc => hp c (by rw [hs]; exact List.mem_append_right _ hc)
    rw [matchToks_nil_of_noNL hnl] at hm
    subst hm
    apply String.ext
    simpa using hs
  · rintro rfl
    exact ⟨[], by simp, rfl⟩

/-- The `$` anchor in decidable form: a newline-free remainder accepted by
the end anchor is empty. -/
theorem bor_iff {a b : Bool} : (a || b) = true ↔ a = true ∨ b = true := by
  simp

theorem band_iff {a b : Bool} : (a && b) = true ↔ a = true ∧ b = true := by
  simp

theorem nil_anchor_of_noNL {s : List Char} (h : noNLL s)
    (hm : (decide (s = []) || decide (s = ['\n'])) = true) : s = [] := by
  rcases bor_iff.mp hm with h1 | h1
  · exact of_decide_eq_true h1
  · exfalso
    exact h '\n' (by rw [of_decide_eq_true h1]; simp) rfl

/-- `[^/]*` alone accepts exactly the newline-free strings without `/`. -/
theorem matchToks_starNoSlash {s : List Char} (hs : noNLL s) :
    matchToks [RTok.starNoSlash] s = true ↔ ∀ c ∈ s, c ≠ '/' := by
  simp only [matchToks, splits_any_iff, Bool.and_eq_true]
  constructor
  · rintro ⟨a, b, rfl, hall, hb⟩
    have hnlb : noNLL b := fun c hc => hs c (List.mem_append_right _ hc)
    have hb' : b = [] := nil_anchor_of_noNL hnlb hb
    subst hb'
    intro c hc
    simpa using List.all_eq_true.mp hall c (by simpa using hc)
  · intro hall
    have h1 : (List.all s fun c => !decide (c = '/')) = true :=
      List.all_eq_true.mpr fun c hc => by simpa using hall c hc
    exact ⟨s, [], by simp, h1, by simp⟩

/-- `.` alone accepts exactly the one-character newline-free strings. -/
theorem matchToks_anyNoNL {s : List Char} (hs : noNLL s) :
    matchToks [RTok.anyNoNL] s = true ↔ s.length = 1 := by
  cases s with
  | nil => simp [matchToks]
  | cons x s' =>
    simp only [matchToks, Bool.and_eq_true, List.length_cons]
    constructor
    · rintro ⟨-, hm⟩
      have h0 : s' = [] :=
        nil_anchor_of_noNL (fun c hc => hs c (List.mem_cons_of_mem _ hc)) hm
      simp [h0]
    · intro hlen
      have h0 : s' = [] := by
        cases s' with
        | nil => rfl
        | cons y t => simp at hlen
      subst h0
      refine ⟨?_, by decide⟩
      simpa using hs x (by simp)

/-- `(?:/.*)?` at the end of the tokens accepts, over newline-free input,
exactly the empty remainder or a `/` followed by anything. -/
theorem matchToks_optSlashRest {s : List Char} (hs : noNLL s) :
    matchToks [RTok.optSlashRest] s = true ↔ s = [] ∨ ∃ r, s = '/' :: r := by
  cases s with
  | nil => simp [matchToks]
  | cons x s' =>
    rcases eq_or_ne x '/' with rfl | hx
    · simp only [matchToks]
      constructor
      · intro _
        exact Or.inr ⟨s', rfl⟩
      · intro _
        apply bor_iff.mpr
        right
        rw [splits_any_iff]
        exact ⟨s', [], by simp, band_iff.mpr
          ⟨List.all_eq_true.mpr fun c hc =>
            by simpa using hs c (List.mem_cons_of_mem _ hc), by simp⟩⟩
    · simp only [matchToks]
      constructor
      · intro hm
        exfalso
        rcases bor_iff.mp hm with h1 | h1
        · have h2 : x :: s' = [] := nil_anchor_of_noNL hs h1
          simp at h2
        · revert h1
          split
          · rename_i s'' heq
            injection heq with he1 _
            exact fun _ => hx he1
          · intro h1; simp at h1
      · rintro (h | ⟨r, hr⟩)
        · simp at h
        · injection hr with h1 _
          exact absurd h1 hx

/-- `splitOnSlash` past a slash-free prefix: the prefix is glued onto the
first part of the rest. -/
theorem splitOnSlash_append {a l : List Char} (ha : ∀ c ∈ a, c ≠ '/') :
    splitOnSlash (a ++ l) =
      (a ++ (splitOnSlash l).headI) :: (splitOnSlash l).tail := by
  induction a with
  | nil =>
    rcases hq : splitOnSlash l with _ | ⟨p, ps⟩
    · exact absurd hq (splitOnSlash_ne_nil _)
    · simp [hq]
  | cons c a ih =>
    have hc : ¬(c = '/') := ha c (by simp)
    simp only [List.cons_append, splitOnSlash, if_neg hc, List.append_eq]
    rw [ih fun d hd => ha d (List.mem_cons_of_mem _ hd)]

/-- The compiled tokens of `x ++ "/**"` for a slash-free literal segment
`x`: the literal characters of `x` followed by `(?:/.*)?`. -/
theorem glob_to_regex_trailing_recursive (x : String)
    (hx : ∀ c ∈ x.data, c ≠ '*' ∧ c ≠ '?' ∧ c ≠ '/') :
    glob_to_regex (x ++ "/**") = x.data.map RTok.lit ++ [RTok.optSlashRest] := by
  unfold glob_to_regex
  have hdata : (x ++ "/**").data = x.data ++ ['/', '*', '*'] := by
    rw [String.data_append]
  rw [hdata]
  have hsplit : splitOnSlash (x.data ++ ['/', '*', '*']) = [x.data, ['*', '*']] := by
    rw [splitOnSlash_append fun c hc => (hx c hc).2.2]
    have h2 : splitOnSlash ['/', '*', '*'] = [[], ['*', '*']] := by decide
    rw [h2]
    simp
  unfold segsOf
  rw [hsplit]
  have hne : x.data ≠ ['*', '*'] := by
    intro he
    exact (hx '*' (by rw [he]; simp)).1 rfl
  have hseg : compileSegment x.data = x.data.map RTok.lit := by
    unfold compileSegment
    apply List.map_congr_left
    intro c hc
    simp [(hx c hc).1, (hx c hc).2.1]
  simp only [List.map_cons, List.map_nil, if_neg hne, if_pos rfl, hseg]
  simp [assembleGo]

/-- `[^/]*` followed by more tokens: some slash-free prefix is consumed. -/
theorem matchToks_star_cons {ts : List RTok} {s : List Char} :
    matchToks (RTok.starNoSlash :: ts) s = true ↔
      ∃ a b, s = a ++ b ∧ (∀ c ∈ a, c ≠ '/') ∧ matchToks ts b = true := by
  simp only [matchToks, splits_any_iff, band_iff]
  constructor
  · rintro ⟨a, b, rfl, h1, h2⟩
    exact ⟨a, b, rfl, fun c hc =>
      by simpa using List.all_eq_true.mp h1 c (by simpa using hc), h2⟩
  · rintro ⟨a, b, rfl, h1, h2⟩
    exact ⟨a, b, rfl, List.all_eq_true.mpr fun c hc => by simpa using h1 c hc, h2⟩

/-! ## Claim theorems: the pattern compiler (C1, C7, C8) -/

/-- C1, counterexample.  The claim states that `?` matches exactly one
character excluding the path separator, so the matcher compiled from
`a?c` should never let the `?` consume a `/`.  But `?` compiles to the
regex `.`, which does match `/`: the path `a/c` is accepted (the `a` and
`c` are literals, so the `/` can only have been consumed by the `?`). -/
theorem C1_counterexample : reMatch "a?c" "a/c" = true := by decide

/-- C1, amended: within a non-recursive segment, `*` matches any run of
characters excluding the path separator (including the empty run, and
also inside a composite segment such as `a*c`), and every
non-wildcard character — regex metacharacters included — matches only
itself literally; but `?` matches exactly one arbitrary character
(anything except newline), INCLUDING the path separator `/`. -/
theorem C1_segment_semantics :
    (∀ path : String, noNL path →
      (reMatch "*" path = true ↔ ∀ c ∈ path.data, c ≠ '/')) ∧
    (∀ path : String, noNL path →
      (reMatch "a*c" path = true ↔
        ∃ m, (∀ c ∈ m, c ≠ '/') ∧ path.data = 'a' :: (m ++ ['c']))) ∧
    (∀ path : String, noNL path →
      (reMatch "?" path = true ↔ path.data.length = 1)) ∧
    reMatch "a?c" "a/c" = true ∧
    (∀ path : String, noNL path →
      (reMatch "a+c" path = true ↔ path = "a+c")) := by
  refine ⟨?_, ?_, ?_, by decide, ?_⟩
  · intro path hp
    unfold reMatch
    rw [show glob_to_regex "*" = [RTok.starNoSlash] from rfl]
    exact matchToks_starNoSlash hp
  · intro path hp
    unfold reMatch
    rw [show glob_to_regex "a*c" =
      ['a'].map RTok.lit ++ (RTok.starNoSlash :: (['c'].map RTok.lit ++ [])) from rfl]
    rw [matchToks_lit_append]
    constructor
    · rintro ⟨s', hs, hm⟩
      rw [matchToks_star_cons] at hm
      rcases hm with ⟨m, b, rfl, hm1, hm2⟩
      rw [matchToks_lit_append] at hm2
      rcases hm2 with ⟨b', hb, hm3⟩
      have hnl : noNLL b' := by
        intro c hc
        refine hp c ?_
        rw [hs, hb]
        simp [hc]
      have hb0 : b' = [] := (matchToks_nil_of_noNL hnl).mp hm3
      subst hb0
      refine ⟨m, hm1, ?_⟩
      rw [hs, hb]
      simp
    · rintro ⟨m, hm, hpath⟩
      refine ⟨m ++ ['c'], by simpa using hpath, ?_⟩
      rw [matchToks_star_cons]
      refine ⟨m, ['c'], rfl, hm, ?_⟩
      rw [matchToks_lit_append]
      exact ⟨[], rfl, rfl⟩
  · intro path hp
    unfold reMatch
    rw [show glob_to_regex "?" = [RTok.anyNoNL] from rfl]
    exact matchToks_anyNoNL hp
  · intro path hp
    exact reMatch_literal "a+c" (by decide) path hp

/-- C8: matching is anchored at both ends of the path: over the program's
(newline-free) paths, a pattern consisting only of literal characters
(no `*` or `?`, hence no `**` segment either) accepts exactly the one
path identical to the pattern, so prefix or partial matches never
match. -/
theorem C8_literal_pattern_exact (pattern : String)
    (h : ∀ c ∈ pattern.data, c ≠ '*' ∧ c ≠ '?')
    (path : String) (hp : noNL path) :
    reMatch pattern path = true ↔ path = pattern :=
  reMatch_literal pattern h path hp

theorem C8_witness :
    (reMatch "a/b.c" "a/b.c" = true ↔ "a/b.c" = "a/b.c") ∧
      (reMatch "a/b.c" "a/b.cd" = true ↔ "a/b.cd" = "a/b.c") :=
  ⟨C8_literal_pattern_exact "a/b.c" (by decide) "a/b.c" (by decide),
   C8_literal_pattern_exact "a/b.c" (by decide) "a/b.cd" (by decide)⟩

/-- C7, counterexample.  The claim says a trailing `x/**` accepts `x`
itself or `x` followed by `/` and a NON-empty remainder, and nothing
else; but the compiled `(?:/.*)?` lets the `.*` be empty, so `src/**`
also accepts the path `src/` (empty remainder after the slash). -/
theorem C7_counterexample :
    reMatch "src/**" "src/" = true ∧
      ¬("src/" = "src" ∨ ∃ r : String, r ≠ "" ∧ "src/" = "src" ++ "/" ++ r) := by
  refine ⟨by decide, ?_⟩
  rintro (h | ⟨r, hr, he⟩)
  · exact absurd h (by decide)
  · have hd := congrArg String.data he
    rw [String.data_append, String.data_append] at hd
    have h0 : r.data = [] := by simpa using hd
    exact hr (String.ext h0)

/-- C7, amended: a pattern `x/**` with a trailing recursive segment (for a
literal, slash-free first segment `x`) accepts `x` itself with no
suffix, and `x` followed by `/` and ANY remainder — the empty remainder
included — and accepts nothing else. -/
theorem C7_trailing_recursive_matches (x : String)
    (hx : ∀ c ∈ x.data, c ≠ '*' ∧ c ≠ '?' ∧ c ≠ '/')
    (path : String) (hp : noNL path) :
    reMatch (x ++ "/**") path = true ↔
      path = x ∨ ∃ r : List Char, path.data = x.data ++ '/' :: r := by
  unfold reMatch
  rw [glob_to_regex_trailing_recursive x hx, matchToks_lit_append]
  constructor
  · rintro ⟨s', hs, hm⟩
    have hnl : noNLL s' := fun c hc =>
      hp c (by rw [hs]; exact List.mem_append_right _ hc)
    rcases (matchToks_optSlashRest hnl).mp hm with rfl | ⟨r, rfl⟩
    · left
      apply String.ext
      simpa using hs
    · right
      exact ⟨r, hs⟩
  · rintro (rfl | ⟨r, hr⟩)
    · refine ⟨[], by simp, ?_⟩
      exact (matchToks_optSlashRest (by intro c hc; simp at hc)).mpr (Or.inl rfl)
    · refine ⟨'/' :: r, hr, ?_⟩
      have hnl : noNLL ('/' :: r) := fun c hc =>
        hp c (by rw [hr]; exact List.mem_append_right _ hc)
      exact (matchToks_optSlashRest hnl).mpr (Or.inr ⟨r, rfl⟩)

theorem C7_witness :
    reMatch "src/**" "src/x" = true ∧ reMatch "src/**" "src" = true ∧
      reMatch "src/**" "src/a/b" = true := by
  refine ⟨?_, ?_, ?_⟩
  · exact (C7_trailing_recursive_matches "src" (by decide) "src/x"
      (by decide)).mpr (Or.inr ⟨['x'], rfl⟩)
  · exact (C7_trailing_recursive_matches "src" (by decide) "src"
      (by decide)).mpr (Or.inl rfl)
  · exact (C7_trailing_recursive_matches "src" (by decide) "src/a/b"
      (by decide)).mpr (Or.inr ⟨['a', '/', 'b'], rfl⟩)

/-! ## Claim theorems: the change-set resolver (C2, C4, C5) -/

/-- The first character of a `dropWhile` result never satisfies the
dropped predicate. -/
theorem dropWhile_head_not {p : Char → Bool} {l : List Char} :
    ∀ c, (l.dropWhile p).head? = some c → p c = false := by
  induction l with
  | nil => intro c h; simp at h
  | cons x xs ih =>
    intro c h
    rw [List.dropWhile_cons] at h
    split at h
    · exact ih c h
    · rename_i hx
      simp only [List.head?_cons, Option.some.injEq] at h
      subst h
      exact Bool.eq_false_iff.mpr hx

/-- A non-empty stripped line contains a non-whitespace character. -/
theorem strip_has_nonspace {s : List Char} (h : strip s ≠ []) :
    ∃ c ∈ strip s, pyIsSpace c = false := by
  unfold strip at h ⊢
  rcases hu : (s.dropWhile pyIsSpace).reverse.dropWhile pyIsSpace with _ | ⟨c, rest⟩
  · rw [hu] at h; simp at h
  · refine ⟨c, ?_, ?_⟩
    · simp
    · exact dropWhile_head_not c (by rw [hu]; rfl)

/-- C2, counterexample.  The claim says the resolver's output is
deduplicated for every diff-provider output; but line 80 only strips and
filters blank lines, so a provider output repeating a path yields a
repeated entry. -/
theorem C2_counterexample :
    get_commits_post "a\na" = ["a", "a"] ∧
      ¬ (["a", "a"] : List String).Nodup := by
  refine ⟨by decide, by decide⟩

/-- C2, amended: the resolver's output is the list of stripped lines of
the diff output with blank entries removed, in provider order; it
contains no empty or whitespace-only entry, but duplicates reported by
the provider are preserved, not removed. -/
theorem C2_entries_nonblank (stdout : String) :
    ∀ e ∈ get_commits_post stdout, e ≠ "" ∧ ∃ c ∈ e.data, pyIsSpace c = false := by
  intro e he
  unfold get_commits_post at he
  rw [List.mem_filterMap] at he
  rcases he with ⟨line, hline, hmap⟩
  simp only at hmap
  by_cases h0 : strip line = []
  · rw [if_pos h0] at hmap
    exact absurd hmap (by simp)
  · rw [if_neg h0] at hmap
    injection hmap with hmap
    subst hmap
    constructor
    · intro hcon
      exact h0 (by simpa using congrArg String.data hcon)
    · exact strip_has_nonspace h0

theorem C2_witness :
    ("a" : String) ≠ "" ∧ ∃ c ∈ "a".data, pyIsSpace c = false :=
  C2_entries_nonblank " a \nb " "a" (by decide)

/-- C4: when both base and ref are non-empty the resolver first attempts
the merge-base of base and ref; if it succeeds, the diff is
merge-base→ref; if and only if it fails, the resolver falls back to the
direct base→ref diff — the merge-base failure is swallowed (the overall
result depends only on the fallback diff command), not propagated. -/
theorem C4_merge_base_fallback (git : Git) (base ref : String)
    (hb : base ≠ "") (hr : ref ≠ "") :
    get_commits git (some base) (some ref) =
      (match git.mergeBase base ref with
       | .ok mb => (git.runDiff (.range mb ref)).map get_commits_post
       | .error _ => (git.runDiff (.range base ref)).map get_commits_post) := by
  unfold get_commits truthy
  simp only [Option.getD_some]
  have hcond : (!decide (base = "") && !decide (ref = "")) = true := by
    simp [hb, hr]
  rw [hcond]
  cases git.mergeBase base ref <;> rfl

theorem C4_witness :
    get_commits gitShallow (some "B") (some "R") = .ok ["B..R"] :=
  (C4_merge_base_fallback gitShallow "B" "R" (by decide) (by decide)).trans (by rfl)

/-- C5: when neither base nor ref is provided (empty or absent), the
resolver diffs parent→HEAD when HEAD has a parent, and otherwise diffs
the canonical empty tree (`4b825d...`) against HEAD — which is how git
reports every tracked file of a root commit as changed. -/
theorem C5_root_commit_empty_tree (git : Git) (base ref : Option String)
    (hb : truthy base = false) (hr : truthy ref = false) :
    get_commits git base ref =
      (if git.headHasParent
       then (git.runDiff (.range "HEAD^" "HEAD")).map get_commits_post
       else (git.runDiff (.range EMPTY_TREE "HEAD")).map get_commits_post) := by
  unfold get_commits
  rw [hb, hr]
  cases git.headHasParent <;> rfl

theorem C5_witness :
    get_commits gitRoot none none =
      .ok ["4b825dc642cb6eb9a060e54bf8d69288fbee4904..HEAD"] :=
  (C5_root_commit_empty_tree gitRoot none none (by decide) (by decide)).trans (by rfl)

end PathsFilter

namespace PathsFilter

/-! ## Claim theorems: event-driven base/ref resolution (C3, C9) -/

/-- C3: for the `pull_request` event kind the resolved base and ref are
exactly the payload's PR base and head commit identifiers, for every
payload and every explicit base/ref input — the explicit inputs are
ignored for this event kind. -/
theorem C3_pull_request_event (ev : EventData) (input_base input_ref : String)
    (github_sha : Option String) :
    resolveBaseRef "pull_request" ev input_base input_ref github_sha =
      (prBaseSha ev, prHeadSha ev) := rfl

/-- The base computed for a push event from a present `before` value:
the code's guard `before and before != NULL_SHA` agrees with the claim's
`before != NULL_SHA` because when `before` is the empty string both
sides resolve the base to the empty string. -/
theorem push_base_if_eq (b : String) :
    (if ¬b = "" ∧ ¬b = NULL_SHA then some b else some "") =
      (if b = NULL_SHA then some "" else some b) := by
  rcases eq_or_ne b NULL_SHA with rfl | hbn
  · simp [NULL_SHA]
  · rcases eq_or_ne b "" with rfl | hbz
    · simp
    · simp [hbn, hbz]

/-- C9: for the `push` event kind the resolved ref is the explicit ref
input when non-empty and `GITHUB_SHA` otherwise, and the resolved base
is the explicit base input when non-empty, else the event's `before`
identifier when present and different from the all-zero placeholder,
else left empty. -/
theorem C9_push_event (ev : EventData) (input_base input_ref : String)
    (github_sha : Option String) :
    resolveBaseRef "push" ev input_base input_ref github_sha =
      ((if input_base ≠ "" then some input_base
        else
          match ev.before with
          | some b => if b ≠ NULL_SHA then some b else some ""
          | none => some ""),
       (if input_ref ≠ "" then some input_ref else github_sha)) := by
  unfold resolveBaseRef
  rw [if_neg (by decide : ¬("push" : String) = "pull_request"),
    if_pos (rfl : ("push" : String) = "push")]
  by_cases hib : input_base = "" <;> by_cases hir : input_ref = "" <;>
    rcases hbe : ev.before with _ | b <;>
      simp only [hib, hir, hbe] <;>
    (try constructor) <;>
    (split_ifs <;> simp_all)

end PathsFilter

namespace PathsFilter

/-! ## Claim theorems: the filter evaluator (C6, C10) -/

/-- One inner-loop step in `appendNew` form. -/
theorem evalStep_snd (toks : List RTok) (st : Bool × List String) (f : String) :
    (evalStep toks st f).2 =
      if matchToks toks f.data then
        (if st.2.contains f then st.2 else st.2 ++ [f])
      else st.2 := by
  unfold evalStep
  split <;> simp_all

/-- The inner file loop accumulates exactly the matching files,
first-seen-deduplicated, onto the running accumulator. -/
theorem evalPattern_snd (toks : List RTok) (changed : List String) :
    ∀ st : Bool × List String,
      (evalPattern toks changed st).2 =
        appendNew st.2 (changed.filter fun f => matchToks toks f.data) := by
  induction changed with
  | nil => intro st; rfl
  | cons f fs ih =>
    intro st
    show (evalPattern toks fs (evalStep toks st f)).2 =
      appendNew st.2 ((f :: fs).filter fun g => matchToks toks g.data)
    rw [ih]
    by_cases hm : matchToks toks f.data = true
    · rw [List.filter_cons_of_pos (by simpa using hm)]
      show appendNew (evalStep toks st f).2 _ = _
      rw [evalStep_snd, if_pos hm]
      rfl
    · rw [List.filter_cons_of_neg (by simpa using hm)]
      rw [evalStep_snd, if_neg hm]

/-- `appendNew` over a concatenation is sequential accumulation. -/
theorem appendNew_append (acc : List String) (l₁ l₂ : List String) :
    appendNew acc (l₁ ++ l₂) = appendNew (appendNew acc l₁) l₂ := by
  unfold appendNew
  exact List.foldl_append _ _ _ _

/-- The whole per-filter loop in `appendNew` form: the matched-file list
is the first-seen de-duplication of the concatenation, pattern by
pattern, of the matching files in changed-list order. -/
theorem evalFilter_snd (patterns changed : List String) :
    ∀ st : Bool × List String,
      (patterns.foldl (fun st p => evalPattern (glob_to_regex p) changed st) st).2 =
        appendNew st.2 ((patterns.map fun p =>
          changed.filter fun f => matchToks (glob_to_regex p) f.data).flatten) := by
  induction patterns with
  | nil => intro st; rfl
  | cons p ps ih =>
    intro st
    simp only [List.foldl_cons, List.map_cons, List.flatten_cons]
    rw [ih, evalPattern_snd, appendNew_append]

/-- `appendNew` preserves freedom from duplicates. -/
theorem appendNew_nodup {acc : List String} (h : acc.Nodup) (l : List String) :
    (appendNew acc l).Nodup := by
  induction l generalizing acc with
  | nil => exact h
  | cons f fs ih =>
    show (appendNew (if acc.contains f then acc else acc ++ [f]) fs).Nodup
    split
    · exact ih h
    · rename_i hc
      refine ih ?_
      have hf : f ∉ acc := by simpa using hc
      simp [List.nodup_append, h, hf]

/-- Members of an `appendNew` result come from the accumulator or the
appended list. -/
theorem mem_appendNew {l : List String} :
    ∀ {acc : List String} {f : String}, f ∈ appendNew acc l → f ∈ acc ∨ f ∈ l := by
  induction l with
  | nil => intro acc f h; exact Or.inl h
  | cons g gs ih =>
    intro acc f h
    have h' := @ih (if acc.contains g then acc else acc ++ [g]) f h
    rcases h' with h' | h'
    · split at h'
      · exact Or.inl h'
      · rcases List.mem_append.mp h' with h'' | h''
        · exact Or.inl h''
        · right
          simp only [List.mem_singleton] at h''
          simp [h'']
    · right
      exact List.mem_cons_of_mem _ h'

/-- C6, counterexample.  Both changed files `a` and `b` match the filter
`["b", "a"]` (each pattern is a literal), so the claimed first-seen order
of the changed-path list `["a", "b"]` would be `["a", "b"]`; but the
evaluation loop iterates patterns outermost, so the matched list comes
out `["b", "a"]`. -/
theorem C6_counterexample :
    matchedFiles ["b", "a"] ["a", "b"] = ["b", "a"] ∧
      (["b", "a"] : List String) ≠ ["a", "b"] := by
  refine ⟨by decide, by decide⟩

/-- C6, amended: each filter's matched-file list is a subset of the
changed-path list and contains no duplicates (a file appears at most
once even when several patterns match it); its order is the first-seen
order of the evaluation scan — patterns outermost in filter order, the
changed-path list innermost — not of the changed-path list itself. -/
theorem C6_matched_files_invariant (patterns changed : List String) :
    (matchedFiles patterns changed).Nodup ∧
    (∀ f ∈ matchedFiles patterns changed, f ∈ changed) ∧
    matchedFiles patterns changed =
      appendNew [] ((patterns.map fun p =>
        changed.filter fun f => matchToks (glob_to_regex p) f.data).flatten) := by
  have hc := evalFilter_snd patterns changed (false, [])
  refine ⟨?_, ?_, hc⟩
  · rw [show matchedFiles patterns changed = _ from hc]
    exact appendNew_nodup List.nodup_nil _
  · intro f hf
    rw [show matchedFiles patterns changed = _ from hc] at hf
    rcases mem_appendNew hf with h | h
    · simp at h
    · rcases List.mem_flatten.mp h with ⟨l, hl, hfl⟩
      rcases List.mem_map.mp hl with ⟨p, hp, rfl⟩
      exact List.mem_of_mem_filter hfl

end PathsFilter

namespace PathsFilter

/-- One step of the file loop preserves the flag/list consistency. -/
theorem evalStep_inv (toks : List RTok) (st : Bool × List String) (f : String)
    (h : st.1 = true ↔ st.2 ≠ []) :
    (evalStep toks st f).1 = true ↔ (evalStep toks st f).2 ≠ [] := by
  unfold evalStep
  split
  · simp only
    constructor
    · intro _
      split
      · rename_i hc
        intro hnil
        rw [hnil] at hc
        simp at hc
      · simp
    · intro _; trivial
  · exact h

/-- The inner file loop preserves the flag/list consistency. -/
theorem evalPattern_inv (toks : List RTok) (changed : List String) :
    ∀ st : Bool × List String, (st.1 = true ↔ st.2 ≠ []) →
      ((evalPattern toks changed st).1 = true ↔ (evalPattern toks changed st).2 ≠ []) := by
  induction changed with
  | nil => intro st h; exact h
  | cons f fs ih =>
    intro st h
    exact ih (evalStep toks st f) (evalStep_inv toks st f h)

/-- A filter's `is_match` flag ends true exactly when its matched-file
list ends non-empty. -/
theorem evalFilter_flag_iff (patterns changed : List String) :
    (evalFilter patterns changed).1 = true ↔ (evalFilter patterns changed).2 ≠ [] := by
  unfold evalFilter
  have h0 : ((false : Bool), ([] : List String)).1 = true ↔
      ((false : Bool), ([] : List String)).2 ≠ [] := by simp
  revert h0
  generalize ((false : Bool), ([] : List String)) = st
  induction patterns generalizing st with
  | nil => intro h; exact h
  | cons p ps ih =>
    intro h
    simp only [List.foldl_cons]
    exact ih _ (evalPattern_inv _ changed st h)

/-- The name of a filter entry is in the aggregate changes list exactly
when that entry's flag is set (names are unique: they are dict keys). -/
theorem mem_changesList_iff (filters : List (String × FilterVal))
    (changed : List String) (hnodup : (filters.map Prod.fst).Nodup)
    (name : String) (fv : FilterVal) (hmem : (name, fv) ∈ filters) :
    name ∈ changesList filters changed ↔
      (evalFilter fv.toList changed).1 = true := by
  induction filters with
  | nil => simp at hmem
  | cons hd tl ih =>
    rw [List.map_cons, List.nodup_cons] at hnodup
    rcases List.mem_cons.mp hmem with heq | hmem'
    · subst heq
      unfold changesList
      rw [List.filter_cons]
      by_cases hflag : (evalFilter fv.toList changed).1 = true
      · simp only [hflag]
        simp
      · have hf' : (evalFilter fv.toList changed).1 = false := by
          simpa using hflag
        simp only [hf', Bool.false_eq_true, if_false]
        constructor
        · intro hin
          exfalso
          have : name ∈ tl.map Prod.fst := by
            rcases List.mem_map.mp hin with ⟨entry, hent, rfl⟩
            exact List.mem_map_of_mem _ (List.mem_of_mem_filter hent)
          exact hnodup.1 this
        · intro hc
          simp at hc
    · have hname : name ∈ tl.map Prod.fst :=
        List.mem_map_of_mem _ hmem'
      have hne : ¬(hd.1 = name) := fun he => hnodup.1 (he ▸ hname)
      unfold changesList
      rw [List.filter_cons]
      have htl := ih hnodup.2 hmem'
      unfold changesList at htl
      split
      · rw [List.map_cons]
        rw [List.mem_cons]
        constructor
        · rintro (h | h)
          · exact absurd h.symm hne
          · exact htl.mp h
        · intro h; exact Or.inr (htl.mpr h)
      · exact htl

/-- C10: for every filter of the set, the boolean flag output (`true` /
`false`), the matched-file list and the `_count` output are mutually
consistent — the flag is `true` iff the list is non-empty iff the count
is positive — and the filter's name appears in the aggregate `changes`
output exactly when its flag is `true`. -/
theorem C10_outputs_consistent (filters : List (String × FilterVal))
    (changed : List String) (hnodup : (filters.map Prod.fst).Nodup)
    (name : String) (fv : FilterVal) (hmem : (name, fv) ∈ filters) :
    (flagOutput fv.toList changed = "true" ↔
      matchedFiles fv.toList changed ≠ []) ∧
    (flagOutput fv.toList changed = "true" ↔
      0 < countOutput fv.toList changed) ∧
    (name ∈ changesList filters changed ↔
      flagOutput fv.toList changed = "true") := by
  have hflag : flagOutput fv.toList changed = "true" ↔
      (evalFilter fv.toList changed).1 = true := by
    unfold flagOutput
    split <;> simp_all
  refine ⟨?_, ?_, ?_⟩
  · rw [hflag]
    exact evalFilter_flag_iff _ _
  · rw [hflag, evalFilter_flag_iff]
    unfold countOutput
    simp [List.length_pos]
  · rw [hflag]
    exact mem_changesList_iff filters changed hnodup name fv hmem

theorem C10_witness :
    (flagOutput (FilterVal.many ["src/**"]).toList ["src/main.x"] = "true" ↔
      matchedFiles (FilterVal.many ["src/**"]).toList ["src/main.x"] ≠ []) ∧
    (flagOutput (FilterVal.many ["src/**"]).toList ["src/main.x"] = "true" ↔
      0 < countOutput (FilterVal.many ["src/**"]).toList ["src/main.x"]) ∧
    ("src" ∈ changesList [("src", FilterVal.many ["src/**"])] ["src/main.x"] ↔
      flagOutput (FilterVal.many ["src/**"]).toList ["src/main.x"] = "true") :=
  C10_outputs_consistent [("src", FilterVal.many ["src/**"])] ["src/main.x"]
    (by decide) "src" (FilterVal.many ["src/**"]) (by decide)

end PathsFilter
